import Mathlib

/-!
Verification of the BabyTask task-graph library.

The development shallowly embeds the library's components:

* `CQueue` models `Queue.h`: a FIFO guarded by a lock; under sequential use
  the lock is irrelevant, so the model is the underlying `std::queue` content.
* `Node` / `Graph` model the per-node state of `TaskNode<...>` and the state
  of `TaskGraph` that `reset()` touches.
* `nodeExecuteNonCopyable` / `nodeExecuteCopyable` model the result-handling
  part of `TaskNode::execute()` for non-copyable and copyable result types.
* `getValue` models `TaskNode::getValue()` on the result slot.
* `ExecGraph` / `ExecState` / `Step` model the scheduling protocol of
  `TaskGraph::execute()` together with `TaskNode::onArgumentReady()`:
  pending-parent counters (64-bit unsigned, as `std::atomic<size_t>`),
  the pool's FIFO work queue, and the completion list.  A step picks any
  submitted node and runs it atomically: the task body, then the
  registration-ordered notifications to its children, then the completion
  report to the graph.
* `dfsVisit` / `dfsFold` / `hasCycle` model `TaskGraph::hasCycle()`:
  a three-colour depth-first search over the `mDescendants` edges,
  re-initialised for every root.
-/

namespace BabyTask

/-! ### Concurrent queue (`Queue.h`), sequential semantics -/

/-- The state of `Queue<T>`: the content of the wrapped `std::queue`,
front first. -/
structure CQueue (α : Type) where
  items : List α

/-- Model of `Queue::push`: appends at the back, always returns `true`. -/
def CQueue.push (q : CQueue α) (x : α) : CQueue α × Bool :=
  (⟨q.items ++ [x]⟩, true)

/-- Model of `Queue::pop`: returns `none` (not-found) on an empty queue, otherwise
removes and returns the front element. -/
def CQueue.pop (q : CQueue α) : CQueue α × Option α :=
  match q.items with
  | [] => (⟨[]⟩, none)
  | x :: rest => (⟨rest⟩, some x)

/-- Model of `Queue::empty`. -/
def CQueue.isEmpty (q : CQueue α) : Bool :=
  q.items.isEmpty

/-- Push a whole list of elements, oldest first. -/
def CQueue.pushAll (q : CQueue α) (xs : List α) : CQueue α :=
  xs.foldl (fun q x => (q.push x).1) q

/-- Pop repeatedly (at most `fuel` times), collecting the returned elements
until the queue reports not-found. -/
def CQueue.drain (fuel : Nat) (q : CQueue α) : List α :=
  match fuel with
  | 0 => []
  | fuel + 1 =>
    match q.pop with
    | (_, none) => []
    | (q', some x) => x :: CQueue.drain fuel q'

/-! ### Task node and graph state (`TaskNode.h`, `TaskGraph.h`) -/

/-- The state of one `TaskNode<TaskCallback, Args...>`.  `α` is the result
type stored in the `std::optional` slot, `τ` the type of the stored callable.
`descendants` is the base-class `mDescendants` edge list (cycle detection),
`dependents` the `mDescendantArguments` notification list, both as node
indices in registration order. -/
structure Node (α : Type) (τ : Type) where
  name : String
  task : τ
  descendants : List Nat
  dependents : List Nat
  result : Option α
  pendingCount : Nat
  parentCount : Nat

/-- Model of `TaskNode::reset()`: `mResult.reset(); mPendingCount = mParentCount`. -/
def nodeReset (nd : Node α τ) : Node α τ :=
  { nd with result := none, pendingCount := nd.parentCount }

/-- The state of a `TaskGraph` that `reset()` can touch: the owned nodes and
the completed-task counter. -/
structure Graph (α : Type) (τ : Type) where
  nodes : List (Node α τ)
  completedTasks : Nat

/-- Model of `TaskGraph::reset()`: resets every node, then zeroes `mCompletedTasks`. -/
def graphReset (g : Graph α τ) : Graph α τ :=
  { nodes := g.nodes.map nodeReset, completedTasks := 0 }

/-! ### Result handling in `TaskNode::execute()` -/

/-- Outcome of the result-handling part of `TaskNode::execute()`:
either the thrown `std::logic_error` message, or the final content of the
result slot together with the values delivered to the registered
result-consumers (`mDescendantTasks`), in order. -/
inductive ExecOutcome (α : Type) where
  | err : String → ExecOutcome α
  | done : Option α → List α → ExecOutcome α
  deriving DecidableEq

/-- Result handling of `TaskNode::execute()` when `ReturnType` is not copy
constructible, with `v` the value computed by the callable and `consumers`
the number of registered result-consumers (`mDescendantTasks.size()`):
more than one consumer throws; otherwise the slot is filled, and when a
consumer exists the value is moved to it and the slot cleared. -/
def nodeExecuteNonCopyable (v : α) (consumers : Nat) : ExecOutcome α :=
  if consumers > 1 then
    ExecOutcome.err ("cant have more than 1 descendant process for  anon-copyable object")
  else if consumers = 0 then
    ExecOutcome.done (some v) []
  else
    ExecOutcome.done none [v]

/-- Result handling of `TaskNode::execute()` when `ReturnType` is copy
constructible: the slot is filled and every consumer receives a copy. -/
def nodeExecuteCopyable (v : α) (consumers : Nat) : ExecOutcome α :=
  ExecOutcome.done (some v) (List.replicate consumers v)

/-- Model of `TaskNode::getValue()`: throws `"node has no result."` when the slot is
empty, otherwise returns the stored value. -/
def getValue (result : Option α) : Except String α :=
  match result with
  | none => Except.error ("node has no result.")
  | some v => Except.ok v

/-! ### The execution protocol (`TaskGraph::execute`, `TaskNode::onArgumentReady`)

A graph, for scheduling purposes, is the per-node callable arity together
with the per-node registration-ordered list of children (the
`mDescendantArguments` callbacks installed by `setParent`; `setParent`
also increments the child's `mPendingCount` and `mParentCount`, which start
at the callable's arity). -/

/-- Scheduling-relevant shape of a `TaskGraph`: node `i` has callable arity
`arity[i]` and notifies the nodes `children[i]`, in registration order, when
it completes.  Each occurrence of `c` in some `children[p]` is one
`setParent` registration of edge `p → c`. -/
structure ExecGraph where
  arity : List Nat
  children : List (List Nat)

/-- Number of nodes (`mNodes.size()`). -/
def ExecGraph.numNodes (g : ExecGraph) : Nat := g.arity.length

/-- Registration-ordered children of node `i`. -/
def ExecGraph.childrenOf (g : ExecGraph) (i : Nat) : List Nat :=
  g.children.getD i []

/-- Number of `setParent` registrations with child `c` (dependency edges
into `c`, counted with multiplicity). -/
def ExecGraph.inCount (g : ExecGraph) (c : Nat) : Nat :=
  ∑ p ∈ Finset.range g.numNodes, (g.childrenOf p).count c

/-- Initial value of `mPendingCount` (and `mParentCount`) of node `c`:
the callable's arity plus one per `setParent` registration. -/
def ExecGraph.initPending (g : ExecGraph) (c : Nat) : Nat :=
  g.arity.getD c 0 + g.inCount c

/-- The constant `2^64`: `mPendingCount` is a `std::atomic<size_t>` (64-bit, wrapping). -/
def U64 : Nat := 2 ^ 64

/-- The decrement `--mPendingCount` on a 64-bit unsigned counter. -/
def decWrap (p : Nat) : Nat := (p + (U64 - 1)) % U64

/-- A state of one run of `TaskGraph::execute()`: the pending-parent counter
of every node, the pool's FIFO work queue (submitted, not yet started), and
the nodes whose `execute()` has finished, in completion order. -/
structure ExecState where
  pending : List Nat
  queue : List Nat
  completed : List Nat
  deriving DecidableEq

/-- Model of `TaskNode::onArgumentReady()` for node `c`: decrement its pending-parent
counter; if the decrement observes zero, submit `c` to the pool's queue. -/
def fireEdge (s : ExecState) (c : Nat) : ExecState :=
  let p' := decWrap (s.pending.getD c 0)
  let s1 : ExecState := { s with pending := s.pending.set c p' }
  if p' = 0 then { s1 with queue := s1.queue ++ [c] } else s1

/-- Model of `TaskNode::execute()` for node `i`, run atomically: the task body, then
one `onArgumentReady` per registered child in registration order, then the
completion report `onSingleNodeCompleted()`. -/
def runNode (g : ExecGraph) (i : Nat) (s : ExecState) : ExecState :=
  let s1 := (g.childrenOf i).foldl fireEdge s
  { s1 with completed := s1.completed ++ [i] }

/-- The state at the start of `execute()` on a freshly wired (or freshly
reset) graph: every counter at its initial value, and the initial ready
set — the nodes whose pending count is zero — submitted in node order. -/
def initState (g : ExecGraph) : ExecState :=
  { pending := (List.range g.numNodes).map g.initPending
  , queue := (List.range g.numNodes).filter (fun i => g.initPending i = 0)
  , completed := [] }

/-- One scheduling step: some worker takes any submitted node from the
queue and runs it to completion. -/
inductive Step (g : ExecGraph) : ExecState → ExecState → Prop
  | run (s : ExecState) (i : Nat) (q1 q2 : List Nat) :
      s.queue = q1 ++ i :: q2 →
      Step g s (runNode g i { s with queue := q1 ++ q2 })

/-- States reachable during one execution cycle. -/
def Reachable (g : ExecGraph) (s : ExecState) : Prop :=
  Relation.ReflTransGen (Step g) (initState g) s

/-- Edges into `c` already fired: every completed parent fired once per
registration of `c` as its child. -/
def firedInto (g : ExecGraph) (s : ExecState) (c : Nat) : Nat :=
  (s.completed.map (fun p => (g.childrenOf p).count c)).sum

/-- Well-formedness of the wiring: the two per-node lists agree in length,
children are node indices, and no counter starts beyond the 64-bit range. -/
def WfExec (g : ExecGraph) : Prop :=
  g.children.length = g.arity.length ∧
  (∀ l ∈ g.children, ∀ c ∈ l, c < g.numNodes) ∧
  (∀ c < g.numNodes, g.initPending c < U64)

/-- Single-worker execution: the lone worker repeatedly pops the queue's
front node and runs it (task body first, then notifications), so submission
order is run order.  `eff i` is the side effect of node `i`'s task body on
the shared state (a string, as in `Tests.cpp`). -/
def fifoRun (g : ExecGraph) (eff : Nat → String → String) :
    Nat → ExecState → String → String
  | 0, _, out => out
  | fuel + 1, s, out =>
    match s.queue with
    | [] => out
    | i :: rest => fifoRun g eff fuel (runNode g i { s with queue := rest }) (eff i out)

/-! ### The `Tests.cpp` `Test1` graph

Nodes in creation order: `task1, task2, task3, task4` (indices 0–3), all
zero-argument.  `setParent` calls in program order: `task2←task1`,
`task4←task1`, `task2←task3`, `task4←task3`, `task3←task1`; so node 0
notifies `[1, 3, 2]` and node 2 notifies `[1, 3]`. -/

/-- Wiring of `Test1`. -/
def test1Graph : ExecGraph :=
  { arity := [0, 0, 0, 0], children := [[1, 3, 2], [], [1, 3], []] }

/-- Side effects of the `Test1` task bodies on the shared string `out`:
`task1` assigns, the others append. -/
def test1Eff (i : Nat) (out : String) : String :=
  match i with
  | 0 => "task1->"
  | 1 => out ++ "task2->"
  | 2 => out ++ "task3->"
  | 3 => out ++ "task4"
  | _ => out

/-- A concrete two-node graph state used to instantiate reset lemmas. -/
def gEx : Graph Nat Nat :=
  ⟨[⟨"a", 7, [1], [1], some 3, 0, 2⟩, ⟨"b", 8, [], [], none, 1, 1⟩], 5⟩

/-! ### Cycle detection (`TaskGraph::hasCycle`)

The `mDescendants` edge lists, in node order, as in `TaskGraph::mNodes`. -/

/-- Descendant lists of the graph: `g[i]` is node `i`'s `mDescendants`. -/
def adjOf (g : List (List Nat)) (i : Nat) : List Nat := g.getD i []

/-- One descendant edge: `b` is in `a`'s descendant list. -/
def Gstep (adjF : Nat → List Nat) (a b : Nat) : Prop := b ∈ adjF a

/-- Well-formedness: every descendant is a node of the graph. -/
def WfDesc (g : List (List Nat)) : Prop := ∀ l ∈ g, ∀ j ∈ l, j < g.length

mutual
/-- The recursive `DFS` lambda of `TaskGraph::hasCycle`: mark `cur`
in-progress (`col[cur] = true`, the gray set), scan its descendants, and on
falling through mark it done (`col[cur] = false`, the black set).  `fuel`
bounds the recursion depth; `hasCycle` passes enough for it never to run
out, and the correctness theorem never relies on the out-of-fuel branch. -/
def dfsVisit (adjF : Nat → List Nat) (fuel : Nat) (cur : Nat)
    (gray black : Finset Nat) : Bool × Finset Nat × Finset Nat :=
  match fuel with
  | 0 => (true, gray, black)
  | fuel + 1 => dfsFold adjF fuel (adjF cur) cur (insert cur gray) black
termination_by (fuel, 0)

/-- The `for (auto& nextNode : currentNode->mDescendants)` loop of the DFS:
an uncoloured next node is visited recursively, an in-progress next node is
a back-edge reporting a cycle, a done next node is skipped. -/
def dfsFold (adjF : Nat → List Nat) (fuel : Nat) (lst : List Nat) (cur : Nat)
    (gray black : Finset Nat) : Bool × Finset Nat × Finset Nat :=
  match lst with
  | [] => (false, gray.erase cur, insert cur black)
  | next :: rest =>
    if next ∉ gray ∧ next ∉ black then
      match dfsVisit adjF fuel next gray black with
      | (true, g2, b2) => (true, g2, b2)
      | (false, g2, b2) => dfsFold adjF fuel rest cur g2 b2
    else if next ∈ gray then (true, gray, black)
    else dfsFold adjF fuel rest cur gray black
termination_by (fuel, lst.length + 1)
end

/-- Model of `TaskGraph::hasCycle()`: run the three-colour DFS from every node in
node order, with the colour map cleared before each root. -/
def hasCycle (g : List (List Nat)) : Bool :=
  (List.range g.length).any (fun r => (dfsVisit (adjOf g) (g.length + 1) r ∅ ∅).1)

/-! ### Correctness of the three-colour DFS -/

/-- Invariant of the done (black) set: all done nodes are graph nodes, the
set is closed under descendant edges, and no done node lies on a cycle
through itself. -/
def BlackInv (adjF : Nat → List Nat) (n : Nat) (black : Finset Nat) : Prop :=
  black ⊆ Finset.range n ∧
  (∀ u ∈ black, ∀ v ∈ adjF u, v ∈ black) ∧
  (∀ u ∈ black, ¬ Relation.TransGen (Gstep adjF) u u)

theorem black_reach_closed (adjF : Nat → List Nat) (n : Nat) (black : Finset Nat)
    (h : BlackInv adjF n black) (u v : Nat) (hu : u ∈ black)
    (hr : Relation.ReflTransGen (Gstep adjF) u v) : v ∈ black := by
  induction hr with
  | refl => exact hu
  | tail _ hstep ih => exact h.2.1 _ ih _ hstep

/-- Specification of `dfsVisit` at a given fuel: on a white node, with the
gray set forming a path stack to the node and the black set invariant,
a `true` answer exhibits a cycle and a `false` answer leaves the gray set
unchanged, moves the node (and everything newly explored) to a black set
that still satisfies the invariant. -/
def VisitP (adjF : Nat → List Nat) (n fuel : Nat) : Prop :=
  ∀ cur gray black res g2 b2,
    dfsVisit adjF fuel cur gray black = (res, g2, b2) →
    cur < n → cur ∉ gray → cur ∉ black →
    gray ⊆ Finset.range n → BlackInv adjF n black → Disjoint gray black →
    (∀ x ∈ gray, Relation.ReflTransGen (Gstep adjF) x cur) →
    n ≤ fuel + (gray ∪ black).card →
    (res = true → ∃ v, Relation.TransGen (Gstep adjF) v v) ∧
    (res = false → g2 = gray ∧ black ⊆ b2 ∧ cur ∈ b2 ∧ BlackInv adjF n b2 ∧
      Disjoint gray b2)

/-- Specification of `dfsFold`, scanning the unprocessed tail of `cur`'s
descendant list while `cur` is gray and every processed descendant is
black. -/
def FoldP (adjF : Nat → List Nat) (n fuel : Nat) : Prop :=
  ∀ lst cur gray black res g2 b2,
    dfsFold adjF fuel lst cur gray black = (res, g2, b2) →
    cur < n → cur ∈ gray → cur ∉ black →
    (∀ x ∈ lst, x ∈ adjF cur) →
    (∀ v ∈ adjF cur, v ∈ black ∨ v ∈ lst) →
    gray ⊆ Finset.range n → BlackInv adjF n black → Disjoint gray black →
    (∀ x ∈ gray, Relation.ReflTransGen (Gstep adjF) x cur) →
    n ≤ fuel + (gray ∪ black).card →
    (res = true → ∃ v, Relation.TransGen (Gstep adjF) v v) ∧
    (res = false → g2 = gray.erase cur ∧ black ⊆ b2 ∧ cur ∈ b2 ∧ BlackInv adjF n b2 ∧
      Disjoint (gray.erase cur) b2)

theorem visit_zero (adjF : Nat → List Nat) (n : Nat) : VisitP adjF n 0 := by
  intro cur gray black res g2 b2 heq hcur hg hb hgsub hbi hdisj hpath hfuel
  exfalso
  have hsub : gray ∪ black ⊆ Finset.range n := Finset.union_subset hgsub hbi.1
  have hss : gray ∪ black ⊂ Finset.range n := by
    refine (Finset.ssubset_iff_of_subset hsub).mpr ?_
    exact ⟨cur, Finset.mem_range.mpr hcur, by simp [hg, hb]⟩
  have hlt := Finset.card_lt_card hss
  rw [Finset.card_range] at hlt
  omega

theorem visit_succ (adjF : Nat → List Nat) (n : Nat) (fuel : Nat)
    (hFold : FoldP adjF n fuel) : VisitP adjF n (fuel + 1) := by
  intro cur gray black res g2 b2 heq hcur hg hb hgsub hbi hdisj hpath hfuel
  simp only [dfsVisit] at heq
  have hcardu : (insert cur gray ∪ black).card = (gray ∪ black).card + 1 := by
    rw [Finset.insert_union]
    exact Finset.card_insert_of_not_mem (by simp [hg, hb])
  have hres := hFold (adjF cur) cur (insert cur gray) black res g2 b2 heq hcur
    (Finset.mem_insert_self cur gray) hb (fun x hx => hx) (fun v hv => Or.inr hv)
    (Finset.insert_subset_iff.mpr ⟨Finset.mem_range.mpr hcur, hgsub⟩) hbi
    (by rw [Finset.disjoint_insert_left]; exact ⟨hb, hdisj⟩)
    (by
      intro x hx
      rcases Finset.mem_insert.mp hx with hx | hx
      · subst hx
        exact Relation.ReflTransGen.refl
      · exact hpath x hx)
    (by omega)
  refine ⟨hres.1, ?_⟩
  intro hfalse
  obtain ⟨hg2, hbsub, hcurb, hbi2, hdisj2⟩ := hres.2 hfalse
  rw [Finset.erase_insert hg] at hg2 hdisj2
  exact ⟨hg2, hbsub, hcurb, hbi2, hdisj2⟩

theorem fold_aux (adjF : Nat → List Nat) (n : Nat) (hwf : ∀ i, ∀ j ∈ adjF i, j < n)
    (fuel : Nat) (hVisit : VisitP adjF n fuel) : FoldP adjF n fuel := by
  intro lst
  induction lst with
  | nil =>
    intro cur gray black res g2 b2 heq hcur hgmem hb hlst hcov hgsub hbi hdisj hpath hfuel
    simp only [dfsFold, Prod.mk.injEq] at heq
    obtain ⟨hres, hg2, hb2⟩ := heq
    subst hres
    subst hg2
    subst hb2
    constructor
    · intro ht
      exact absurd ht (by simp)
    · intro _
      refine ⟨rfl, Finset.subset_insert _ _, Finset.mem_insert_self _ _, ?_, ?_⟩
      · refine ⟨Finset.insert_subset_iff.mpr ⟨Finset.mem_range.mpr hcur, hbi.1⟩, ?_, ?_⟩
        · intro u hu v hv
          rcases Finset.mem_insert.mp hu with hu | hu
          · subst hu
            rcases hcov v hv with h1 | h1
            · exact Finset.mem_insert_of_mem h1
            · exact absurd h1 (List.not_mem_nil v)
          · exact Finset.mem_insert_of_mem (hbi.2.1 u hu v hv)
        · intro u hu hcyc
          rcases Finset.mem_insert.mp hu with hu | hu
          · subst hu
            obtain ⟨w, hw, hreach⟩ := Relation.TransGen.head'_iff.mp hcyc
            have hwb : w ∈ black := by
              rcases hcov w hw with h1 | h1
              · exact h1
              · exact absurd h1 (List.not_mem_nil w)
            exact hb (black_reach_closed adjF n black hbi w u hwb hreach)
          · exact hbi.2.2 u hu hcyc
      · rw [Finset.disjoint_left]
        intro a ha hain
        have han := Finset.mem_erase.mp ha
        rcases Finset.mem_insert.mp hain with h1 | h1
        · exact han.1 h1
        · exact (Finset.disjoint_left.mp hdisj han.2) h1
  | cons next rest ih =>
    intro cur gray black res g2 b2 heq hcur hgmem hb hlst hcov hgsub hbi hdisj hpath hfuel
    have hnext_adj : next ∈ adjF cur := hlst next (List.mem_cons_self next rest)
    have hnextn : next < n := hwf cur next hnext_adj
    simp only [dfsFold] at heq
    by_cases hcase : next ∉ gray ∧ next ∉ black
    · rw [if_pos hcase] at heq
      rcases hv : dfsVisit adjF fuel next gray black with ⟨rv, gv, bv⟩
      rw [hv] at heq
      have hvp := hVisit next gray black rv gv bv hv hnextn hcase.1 hcase.2 hgsub hbi hdisj
        (fun x hx => Relation.ReflTransGen.tail (hpath x hx) hnext_adj) hfuel
      cases rv with
      | true =>
        simp only [Prod.mk.injEq] at heq
        obtain ⟨hres, _, _⟩ := heq
        constructor
        · intro _
          exact hvp.1 rfl
        · intro hfalse
          rw [← hres] at hfalse
          exact absurd hfalse (by simp)
      | false =>
        obtain ⟨hgv, hbsub, hnextb, hbi2, hdisj2⟩ := hvp.2 rfl
        rw [hgv] at heq
        have hcurb2 : cur ∉ bv := fun hx => (Finset.disjoint_left.mp hdisj2 hgmem) hx
        have hres := ih cur gray bv res g2 b2 heq hcur hgmem hcurb2
          (fun x hx => hlst x (List.mem_cons_of_mem next hx))
          (fun v hv2 => by
            rcases hcov v hv2 with h1 | h1
            · exact Or.inl (hbsub h1)
            · rcases List.mem_cons.mp h1 with h1 | h1
              · subst h1
                exact Or.inl hnextb
              · exact Or.inr h1)
          hgsub hbi2 hdisj2 hpath
          (by
            have hmono : (gray ∪ black).card ≤ (gray ∪ bv).card :=
              Finset.card_le_card (Finset.union_subset_union (Finset.Subset.refl gray) hbsub)
            omega)
        refine ⟨hres.1, ?_⟩
        intro hfalse
        obtain ⟨hg2, hb2sub, hcurb, hbi3, hdisj3⟩ := hres.2 hfalse
        exact ⟨hg2, hbsub.trans hb2sub, hcurb, hbi3, hdisj3⟩
    · rw [if_neg hcase] at heq
      by_cases hgr : next ∈ gray
      · rw [if_pos hgr] at heq
        simp only [Prod.mk.injEq] at heq
        obtain ⟨hres, _, _⟩ := heq
        constructor
        · intro _
          exact ⟨next, Relation.TransGen.tail' (hpath next hgr) hnext_adj⟩
        · intro hfalse
          rw [← hres] at hfalse
          exact absurd hfalse (by simp)
      · rw [if_neg hgr] at heq
        have hblk : next ∈ black := by
          by_contra hnb
          exact hcase ⟨hgr, hnb⟩
        exact ih cur gray black res g2 b2 heq hcur hgmem hb
          (fun x hx => hlst x (List.mem_cons_of_mem next hx))
          (fun v hv2 => by
            rcases hcov v hv2 with h1 | h1
            · exact Or.inl h1
            · rcases List.mem_cons.mp h1 with h1 | h1
              · subst h1
                exact Or.inl hblk
              · exact Or.inr h1)
          hgsub hbi hdisj hpath hfuel

theorem dfs_pair (adjF : Nat → List Nat) (n : Nat) (hwf : ∀ i, ∀ j ∈ adjF i, j < n) :
    ∀ fuel, VisitP adjF n fuel ∧ FoldP adjF n fuel := by
  intro fuel
  induction fuel with
  | zero =>
    have hv := visit_zero adjF n
    exact ⟨hv, fold_aux adjF n hwf 0 hv⟩
  | succ fuel ih =>
    have hv := visit_succ adjF n fuel ih.2
    exact ⟨hv, fold_aux adjF n hwf (fuel + 1) hv⟩

/-! ### Invariants of the execution protocol -/

/-- The scheduling invariant of one execution cycle.  `queue ++ completed`
are the nodes submitted so far; the counter of every node equals its initial
value minus the dependency edges already fired into it; a node has been
submitted (exactly once) precisely when its counter is zero; and a submitted
node's parents are all completed. -/
def ExecInv (g : ExecGraph) (s : ExecState) : Prop :=
  s.pending.length = g.numNodes ∧
  (∀ c < g.numNodes, s.pending.getD c 0 + firedInto g s c = g.initPending c) ∧
  (s.queue ++ s.completed).Nodup ∧
  (∀ c, c ∈ s.queue ++ s.completed ↔ c < g.numNodes ∧ s.pending.getD c 0 = 0) ∧
  (∀ c ∈ s.queue ++ s.completed, ∀ p, c ∈ g.childrenOf p → p ∈ s.completed)

/-- The invariant holding while node `i` is running and has already fired
the edges to the children in `done` (a prefix of its child list). -/
def MidInv (g : ExecGraph) (i : Nat) (done : List Nat) (s : ExecState) : Prop :=
  s.pending.length = g.numNodes ∧
  (∀ c < g.numNodes, s.pending.getD c 0 + firedInto g s c + done.count c = g.initPending c) ∧
  ((s.queue ++ s.completed).Nodup ∧ i ∉ s.queue ++ s.completed) ∧
  (∀ c, (c ∈ s.queue ++ s.completed ∨ c = i) ↔ c < g.numNodes ∧ s.pending.getD c 0 = 0) ∧
  (∀ c ∈ s.queue ++ s.completed, ∀ p, c ∈ g.childrenOf p → p ∈ s.completed ∨ p = i)

theorem childrenOf_pos_lt (g : ExecGraph) (hwf : WfExec g) (p c : Nat)
    (hc : c ∈ g.childrenOf p) : p < g.numNodes ∧ c < g.numNodes := by
  have hp : p < g.children.length := by
    by_contra hnp
    have : g.childrenOf p = [] := List.getD_eq_default _ _ (Nat.le_of_not_lt hnp)
    rw [this] at hc
    exact absurd hc (List.not_mem_nil c)
  have hmem : g.childrenOf p ∈ g.children := by
    have := List.getD_eq_getElem g.children [] hp
    rw [ExecGraph.childrenOf, this]
    exact List.getElem_mem hp
  refine ⟨?_, hwf.2.1 _ hmem c hc⟩
  rw [ExecGraph.numNodes, ← hwf.1]
  exact hp

/-- Summing the per-parent edge counts over any duplicate-free set of nodes
stays below the total in-edge count. -/
theorem sum_count_le (g : ExecGraph) (comp : List Nat) (hnd : comp.Nodup)
    (hlt : ∀ p ∈ comp, p < g.numNodes) (c : Nat) :
    (comp.map (fun p => (g.childrenOf p).count c)).sum ≤ g.inCount c := by
  rw [← List.sum_toFinset _ hnd]
  exact Finset.sum_le_sum_of_subset (fun p hp => Finset.mem_range.mpr
    (hlt p (List.mem_toFinset.mp hp)))

/-- If every parent of `c` is in the duplicate-free node list `comp`, the
edges fired from `comp` reach the full in-edge count of `c`. -/
theorem inCount_le_sum (g : ExecGraph) (comp : List Nat) (hnd : comp.Nodup)
    (c : Nat) (hall : ∀ p, c ∈ g.childrenOf p → p ∈ comp) :
    g.inCount c ≤ (comp.map (fun p => (g.childrenOf p).count c)).sum := by
  rw [← List.sum_toFinset _ hnd, ExecGraph.inCount, ← Finset.sum_filter_ne_zero]
  apply Finset.sum_le_sum_of_subset
  intro p hp
  rw [Finset.mem_filter] at hp
  exact List.mem_toFinset.mpr (hall p (List.count_pos_iff.mp (Nat.pos_of_ne_zero hp.2)))

theorem foldl_fireEdge_completed (todo : List Nat) (s : ExecState) :
    (todo.foldl fireEdge s).completed = s.completed := by
  induction todo generalizing s with
  | nil => rfl
  | cons c todo ih =>
    rw [List.foldl_cons, ih]
    simp only [fireEdge]
    split <;> rfl

theorem getD_map_range (f : Nat → Nat) (n c : Nat) (h : c < n) :
    ((List.range n).map f).getD c 0 = f c := by
  rw [List.getD_eq_getElem?_getD, List.getElem?_map, List.getElem?_range h]
  rfl

theorem decWrap_eq_sub (p : Nat) (h1 : 1 ≤ p) (h2 : p < U64) : decWrap p = p - 1 := by
  unfold decWrap
  have hU : 0 < U64 := by unfold U64; positivity
  have : p + (U64 - 1) = (p - 1) + U64 := by omega
  rw [this, Nat.add_mod_right]
  exact Nat.mod_eq_of_lt (by omega)

theorem getD_set_self (l : List Nat) (c v : Nat) (h : c < l.length) :
    (l.set c v).getD c 0 = v := by
  simp [List.getD_eq_getElem?_getD, List.getElem?_set, h]

theorem getD_set_ne (l : List Nat) (c d v : Nat) (h : d ≠ c) :
    (l.set c v).getD d 0 = l.getD d 0 := by
  simp [List.getD_eq_getElem?_getD, List.getElem?_set, Ne.symm h]

theorem count_singleton_nat (d c : Nat) : List.count d [c] = if d = c then 1 else 0 := by
  by_cases h : d = c <;> simp [h]

/-- Firing one more edge of the running node `i` preserves the mid-run
invariant. -/
theorem fireEdge_midInv (g : ExecGraph) (hwf : WfExec g) (i : Nat)
    (hin : i < g.numNodes)
    (done todo : List Nat) (c : Nat)
    (hsplit : done ++ c :: todo = g.childrenOf i)
    (s : ExecState) (h : MidInv g i done s) :
    MidInv g i (done ++ [c]) (fireEdge s c) := by
  obtain ⟨hlen, heq, ⟨hnd, hino⟩, hmem, hpar⟩ := h
  have hci : c ∈ g.childrenOf i := by
    rw [← hsplit]
    exact List.mem_append_right _ (List.mem_cons_self c todo)
  have hcn : c < g.numNodes := (childrenOf_pos_lt g hwf i c hci).2
  have hcomplt : ∀ p ∈ s.completed, p < g.numNodes := fun p hp =>
    ((hmem p).mp (Or.inl (List.mem_append_right _ hp))).1
  have hndc : s.completed.Nodup := hnd.of_append_right
  have hicomp : i ∉ s.completed := fun hc => hino (List.mem_append_right _ hc)
  have hfi : done.count c + 1 ≤ (g.childrenOf i).count c := by
    rw [← hsplit, List.count_append, List.count_cons_self]
    omega
  have hndci : (s.completed ++ [i]).Nodup := by
    rw [List.nodup_append]
    refine ⟨hndc, List.nodup_singleton i, fun a ha hb => ?_⟩
    rw [List.mem_singleton] at hb
    exact hicomp (hb ▸ ha)
  have hsum : firedInto g s c + (g.childrenOf i).count c ≤ g.inCount c := by
    have hs := sum_count_le g (s.completed ++ [i]) hndci (by
      intro p hp
      rcases List.mem_append.mp hp with hp | hp
      · exact hcomplt p hp
      · rw [List.mem_singleton] at hp
        exact hp ▸ hin) c
    rw [List.map_append, List.sum_append] at hs
    simpa [firedInto] using hs
  have heqc := heq c hcn
  have hinit : g.initPending c = g.arity.getD c 0 + g.inCount c := rfl
  have hinitlt : g.initPending c < U64 := hwf.2.2 c hcn
  have hP1 : 1 ≤ s.pending.getD c 0 := by omega
  have hPU : s.pending.getD c 0 < U64 := by omega
  have hdec : decWrap (s.pending.getD c 0) = s.pending.getD c 0 - 1 :=
    decWrap_eq_sub _ hP1 hPU
  have hgetc : (s.pending.set c (s.pending.getD c 0 - 1)).getD c 0 =
      s.pending.getD c 0 - 1 :=
    getD_set_self s.pending c _ (by rw [hlen]; exact hcn)
  have hgetne : ∀ d, d ≠ c → (s.pending.set c (s.pending.getD c 0 - 1)).getD d 0 =
      s.pending.getD d 0 := fun d hd => getD_set_ne s.pending c d _ hd
  -- a node whose counter hits zero has all parents completed (or equal to `i`)
  have hparc : s.pending.getD c 0 = 1 →
      ∀ p, c ∈ g.childrenOf p → p ∈ s.completed ∨ p = i := by
    intro hPone p hcp
    by_contra hcon
    push_neg at hcon
    obtain ⟨hpc, hpi⟩ := hcon
    have hpn : p < g.numNodes := (childrenOf_pos_lt g hwf p c hcp).1
    have hnd3 : (s.completed ++ [i] ++ [p]).Nodup := by
      rw [List.nodup_append]
      refine ⟨hndci, List.nodup_singleton p, fun a ha hb => ?_⟩
      rw [List.mem_singleton] at hb
      subst hb
      rcases List.mem_append.mp ha with ha | ha
      · exact hpc ha
      · rw [List.mem_singleton] at ha
        exact hpi ha
    have hs3 := sum_count_le g (s.completed ++ [i] ++ [p]) hnd3 (by
      intro q hq
      rcases List.mem_append.mp hq with hq | hq
      · rcases List.mem_append.mp hq with hq | hq
        · exact hcomplt q hq
        · rw [List.mem_singleton] at hq
          exact hq ▸ hin
      · rw [List.mem_singleton] at hq
        exact hq ▸ hpn) c
    simp only [List.map_append, List.sum_append, List.map_cons, List.map_nil,
      List.sum_cons, List.sum_nil] at hs3
    have hfp : 1 ≤ (g.childrenOf p).count c := List.count_pos_iff.mpr hcp
    simp only [firedInto] at heqc
    omega
  have hfe : fireEdge s c = if s.pending.getD c 0 - 1 = 0
      then ExecState.mk (s.pending.set c (s.pending.getD c 0 - 1)) (s.queue ++ [c]) s.completed
      else ExecState.mk (s.pending.set c (s.pending.getD c 0 - 1)) s.queue s.completed := by
    simp only [fireEdge, hdec]
  rw [hfe]
  by_cases hz : s.pending.getD c 0 - 1 = 0
  · -- the decrement observes zero: `c` is submitted
    rw [if_pos hz]
    have hPone : s.pending.getD c 0 = 1 := by omega
    have hcnot : ¬(c ∈ s.queue ++ s.completed ∨ c = i) := by
      intro hcm
      have := ((hmem c).mp hcm).2
      omega
    have hcq : c ∉ s.queue ++ s.completed := fun hx => hcnot (Or.inl hx)
    have hcni : c ≠ i := fun hx => hcnot (Or.inr hx)
    unfold MidInv
    refine ⟨?_, ?_, ⟨?_, ?_⟩, ?_, ?_⟩
    · show (s.pending.set c _).length = _
      rw [List.length_set]
      exact hlen
    · intro d hd
      show (s.pending.set c _).getD d 0 + firedInto g s d + (done ++ [c]).count d
        = g.initPending d
      by_cases hdc : d = c
      · subst hdc
        rw [hgetc, List.count_append]
        have hone : List.count d [d] = 1 := by simp
        rw [hone]
        have hde := heq d hd
        omega
      · rw [hgetne d hdc, List.count_append]
        have hc0 : List.count d [c] = 0 := by
          rw [List.count_eq_zero]
          intro hx
          rw [List.mem_singleton] at hx
          exact hdc hx
        rw [hc0]
        have hde := heq d hd
        omega
    · show ((s.queue ++ [c]) ++ s.completed).Nodup
      have hperm : (s.queue ++ [c]) ++ s.completed = s.queue ++ (c :: s.completed) := by
        rw [List.append_assoc]
        rfl
      rw [hperm, List.nodup_middle, List.nodup_cons]
      exact ⟨hcq, hnd⟩
    · show i ∉ (s.queue ++ [c]) ++ s.completed
      intro hx
      rcases List.mem_append.mp hx with hx | hx
      · rcases List.mem_append.mp hx with hx | hx
        · exact hino (List.mem_append_left _ hx)
        · rw [List.mem_singleton] at hx
          exact hcni hx.symm
      · exact hino (List.mem_append_right _ hx)
    · intro d
      show (d ∈ (s.queue ++ [c]) ++ s.completed ∨ d = i) ↔
        d < g.numNodes ∧ (s.pending.set c _).getD d 0 = 0
      by_cases hdc : d = c
      · subst hdc
        rw [hgetc]
        constructor
        · intro _
          exact ⟨hcn, hz⟩
        · intro _
          exact Or.inl (List.mem_append_left _
            (List.mem_append_right _ (List.mem_singleton.mpr rfl)))
      · rw [hgetne d hdc]
        constructor
        · intro hx
          refine (hmem d).mp ?_
          rcases hx with hx | hx
          · rcases List.mem_append.mp hx with hx | hx
            · rcases List.mem_append.mp hx with hx | hx
              · exact Or.inl (List.mem_append_left _ hx)
              · rw [List.mem_singleton] at hx
                exact absurd hx hdc
            · exact Or.inl (List.mem_append_right _ hx)
          · exact Or.inr hx
        · intro hx
          rcases (hmem d).mpr hx with hy | hy
          · rcases List.mem_append.mp hy with hy | hy
            · exact Or.inl (List.mem_append_left _ (List.mem_append_left _ hy))
            · exact Or.inl (List.mem_append_right _ hy)
          · exact Or.inr hy
    · intro d hd p hdp
      rcases List.mem_append.mp hd with hd | hd
      · rcases List.mem_append.mp hd with hd | hd
        · exact hpar d (List.mem_append_left _ hd) p hdp
        · rw [List.mem_singleton] at hd
          subst hd
          exact hparc hPone p hdp
      · exact hpar d (List.mem_append_right _ hd) p hdp
  · -- counter still positive: no submission
    rw [if_neg hz]
    unfold MidInv
    refine ⟨?_, ?_, ⟨hnd, hino⟩, ?_, ?_⟩
    · show (s.pending.set c _).length = _
      rw [List.length_set]
      exact hlen
    · intro d hd
      show (s.pending.set c _).getD d 0 + firedInto g s d + (done ++ [c]).count d
        = g.initPending d
      by_cases hdc : d = c
      · subst hdc
        rw [hgetc, List.count_append]
        have hone : List.count d [d] = 1 := by simp
        rw [hone]
        have hde := heq d hd
        omega
      · rw [hgetne d hdc, List.count_append]
        have hc0 : List.count d [c] = 0 := by
          rw [List.count_eq_zero]
          intro hx
          rw [List.mem_singleton] at hx
          exact hdc hx
        rw [hc0]
        have hde := heq d hd
        omega
    · intro d
      show (d ∈ s.queue ++ s.completed ∨ d = i) ↔
        d < g.numNodes ∧ (s.pending.set c _).getD d 0 = 0
      by_cases hdc : d = c
      · subst hdc
        rw [hgetc]
        constructor
        · intro hx
          have := ((hmem d).mp hx).2
          omega
        · intro hx
          exact absurd hx.2 hz
      · rw [hgetne d hdc]
        exact hmem d
    · exact hpar


/-- Folding the remaining notifications preserves the mid-run invariant. -/
theorem foldl_midInv (g : ExecGraph) (hwf : WfExec g) (i : Nat) (hin : i < g.numNodes)
    (todo : List Nat) : ∀ done s, done ++ todo = g.childrenOf i → MidInv g i done s →
    MidInv g i (done ++ todo) (todo.foldl fireEdge s) := by
  induction todo with
  | nil =>
    intro done s hsplit h
    simpa using h
  | cons c todo ih =>
    intro done s hsplit h
    rw [List.foldl_cons]
    have h1 := fireEdge_midInv g hwf i hin done todo c hsplit s h
    have hsplit2 : (done ++ [c]) ++ todo = g.childrenOf i := by
      rw [List.append_assoc]
      simpa using hsplit
    have h2 := ih (done ++ [c]) (fireEdge s c) hsplit2 h1
    have he : (done ++ [c]) ++ todo = done ++ c :: todo := by simp
    rw [he] at h2
    exact h2

/-- One scheduling step preserves the execution invariant. -/
theorem step_execInv (g : ExecGraph) (hwf : WfExec g) (s s2 : ExecState)
    (hinv : ExecInv g s) (hstep : Step g s s2) : ExecInv g s2 := by
  obtain ⟨hlen, heq, hnd, hmem, hpar⟩ := hinv
  cases hstep with
  | run i q1 q2 hq =>
    have hiq : i ∈ s.queue := by
      rw [hq]
      exact List.mem_append_right _ (List.mem_cons_self i q2)
    have him : i ∈ s.queue ++ s.completed := List.mem_append_left _ hiq
    obtain ⟨hin, hpend0⟩ := (hmem i).mp him
    -- normalise the no-duplicates fact around the popped node
    have hnd2 : ((q1 ++ q2) ++ s.completed).Nodup ∧ i ∉ (q1 ++ q2) ++ s.completed := by
      rw [hq] at hnd
      have hassoc : (q1 ++ i :: q2) ++ s.completed = q1 ++ i :: (q2 ++ s.completed) := by
        rw [List.append_assoc]
        rfl
      rw [hassoc, List.nodup_middle, List.nodup_cons] at hnd
      constructor
      · rw [List.append_assoc]
        exact hnd.2
      · rw [List.append_assoc]
        exact hnd.1
    have hmid0 : MidInv g i [] (ExecState.mk s.pending (q1 ++ q2) s.completed) := by
      refine ⟨hlen, ?_, ⟨hnd2.1, hnd2.2⟩, ?_, ?_⟩
      · intro d hd
        show s.pending.getD d 0 + firedInto g s d + List.count d [] = g.initPending d
        rw [List.count_nil, Nat.add_zero]
        exact heq d hd
      · intro d
        show (d ∈ (q1 ++ q2) ++ s.completed ∨ d = i) ↔ _
        constructor
        · intro hx
          rcases hx with hx | hx
          · refine (hmem d).mp (List.mem_append.mpr ?_)
            rcases List.mem_append.mp hx with hx | hx
            · left
              rw [hq]
              rcases List.mem_append.mp hx with hx | hx
              · exact List.mem_append_left _ hx
              · exact List.mem_append_right _ (List.mem_cons_of_mem i hx)
            · right
              exact hx
          · subst hx
            exact ⟨hin, hpend0⟩
        · intro hx
          have hy := (hmem d).mpr hx
          rcases List.mem_append.mp hy with hy | hy
          · rw [hq] at hy
            rcases List.mem_append.mp hy with hy | hy
            · exact Or.inl (List.mem_append_left _ (List.mem_append_left _ hy))
            · rcases List.mem_cons.mp hy with hy | hy
              · exact Or.inr hy
              · exact Or.inl (List.mem_append_left _ (List.mem_append_right _ hy))
          · exact Or.inl (List.mem_append_right _ hy)
      · intro d hd p hdp
        have hdm : d ∈ s.queue ++ s.completed := by
          rcases List.mem_append.mp hd with hd | hd
          · refine List.mem_append_left _ ?_
            rw [hq]
            rcases List.mem_append.mp hd with hd | hd
            · exact List.mem_append_left _ hd
            · exact List.mem_append_right _ (List.mem_cons_of_mem i hd)
          · exact List.mem_append_right _ hd
        exact Or.inl (hpar d hdm p hdp)
    have hmid := foldl_midInv g hwf i hin (g.childrenOf i) []
      (ExecState.mk s.pending (q1 ++ q2) s.completed) (by simp) hmid0
    rw [List.nil_append] at hmid
    have hcompl1 : ((g.childrenOf i).foldl fireEdge
        (ExecState.mk s.pending (q1 ++ q2) s.completed)).completed = s.completed :=
      foldl_fireEdge_completed _ _
    show ExecInv g (ExecState.mk
      ((g.childrenOf i).foldl fireEdge (ExecState.mk s.pending (q1 ++ q2) s.completed)).pending
      ((g.childrenOf i).foldl fireEdge (ExecState.mk s.pending (q1 ++ q2) s.completed)).queue
      (((g.childrenOf i).foldl fireEdge (ExecState.mk s.pending (q1 ++ q2) s.completed)).completed ++ [i]))
    set s1 := (g.childrenOf i).foldl fireEdge (ExecState.mk s.pending (q1 ++ q2) s.completed) with hs1
    obtain ⟨hlen1, heq1, ⟨hnd1, hino1⟩, hmem1, hpar1⟩ := hmid
    refine ⟨hlen1, ?_, ?_, ?_, ?_⟩
    · intro d hd
      show s1.pending.getD d 0 + firedInto g _ d = g.initPending d
      have hf : firedInto g (ExecState.mk s1.pending s1.queue (s1.completed ++ [i])) d =
          firedInto g s1 d + (g.childrenOf i).count d := by
        simp [firedInto]
      rw [hf]
      have := heq1 d hd
      omega
    · show (s1.queue ++ (s1.completed ++ [i])).Nodup
      have hassoc : s1.queue ++ (s1.completed ++ [i]) = (s1.queue ++ s1.completed) ++ [i] := by
        rw [List.append_assoc]
      rw [hassoc, List.nodup_append]
      refine ⟨hnd1, List.nodup_singleton i, fun a ha hb => ?_⟩
      rw [List.mem_singleton] at hb
      exact hino1 (hb ▸ ha)
    · intro d
      show (d ∈ s1.queue ++ (s1.completed ++ [i])) ↔ _
      constructor
      · intro hx
        rcases List.mem_append.mp hx with hx | hx
        · exact (hmem1 d).mp (Or.inl (List.mem_append_left _ hx))
        · rcases List.mem_append.mp hx with hx | hx
          · exact (hmem1 d).mp (Or.inl (List.mem_append_right _ hx))
          · rw [List.mem_singleton] at hx
            exact (hmem1 d).mp (Or.inr hx)
      · intro hx
        rcases (hmem1 d).mpr hx with hy | hy
        · rcases List.mem_append.mp hy with hy | hy
          · exact List.mem_append_left _ hy
          · exact List.mem_append_right _ (List.mem_append_left _ hy)
        · subst hy
          exact List.mem_append_right _ (List.mem_append_right _ (List.mem_singleton.mpr rfl))
    · intro d hd p hdp
      show p ∈ s1.completed ++ [i]
      rcases List.mem_append.mp hd with hd | hd
      · rcases hpar1 d (List.mem_append_left _ hd) p hdp with hy | hy
        · exact List.mem_append_left _ hy
        · exact List.mem_append_right _ (List.mem_singleton.mpr hy)
      · rcases List.mem_append.mp hd with hd | hd
        · rcases hpar1 d (List.mem_append_right _ hd) p hdp with hy | hy
          · exact List.mem_append_left _ hy
          · exact List.mem_append_right _ (List.mem_singleton.mpr hy)
        · rw [List.mem_singleton] at hd
          subst hd
          refine List.mem_append_left _ ?_
          rw [hs1, foldl_fireEdge_completed]
          show p ∈ s.completed
          exact hpar d him p hdp

/-- The invariant holds at the start of `execute()`. -/
theorem initState_execInv (g : ExecGraph) (hwf : WfExec g) : ExecInv g (initState g) := by
  refine ⟨?_, ?_, ?_, ?_, ?_⟩
  · show ((List.range g.numNodes).map g.initPending).length = g.numNodes
    rw [List.length_map, List.length_range]
  · intro c hc
    show ((List.range g.numNodes).map g.initPending).getD c 0 + firedInto g _ c
      = g.initPending c
    rw [getD_map_range _ _ _ hc]
    have hz : firedInto g (initState g) c = 0 := rfl
    rw [hz]
    omega
  · show (((List.range g.numNodes).filter (fun i => g.initPending i = 0)) ++ []).Nodup
    rw [List.append_nil]
    exact (List.nodup_range _).filter _
  · intro c
    show c ∈ ((List.range g.numNodes).filter (fun i => g.initPending i = 0)) ++ [] ↔ _
    rw [List.append_nil, List.mem_filter, List.mem_range]
    constructor
    · intro hx
      refine ⟨hx.1, ?_⟩
      show ((List.range g.numNodes).map g.initPending).getD c 0 = 0
      rw [getD_map_range _ _ _ hx.1]
      exact of_decide_eq_true hx.2
    · intro hx
      refine ⟨hx.1, ?_⟩
      have h2 : ((List.range g.numNodes).map g.initPending).getD c 0 = 0 := hx.2
      rw [getD_map_range _ _ _ hx.1] at h2
      exact decide_eq_true h2
  · intro c hc p hdp
    exfalso
    have hc2 : c ∈ (List.range g.numNodes).filter (fun i => g.initPending i = 0) ++ [] := hc
    rw [List.append_nil, List.mem_filter] at hc2
    have hinit0 : g.initPending c = 0 := of_decide_eq_true hc2.2
    have hpn : p < g.numNodes := (childrenOf_pos_lt g hwf p c hdp).1
    have hcp : 1 ≤ (g.childrenOf p).count c := List.count_pos_iff.mpr hdp
    have hle : (g.childrenOf p).count c ≤ g.inCount c :=
      Finset.single_le_sum (f := fun q => (g.childrenOf q).count c)
        (fun _ _ => Nat.zero_le _) (Finset.mem_range.mpr hpn)
    have : g.initPending c = g.arity.getD c 0 + g.inCount c := rfl
    omega

/-- The invariant holds in every reachable state of an execution cycle. -/
theorem reachable_execInv (g : ExecGraph) (hwf : WfExec g) (s : ExecState)
    (hr : Reachable g s) : ExecInv g s := by
  induction hr with
  | refl => exact initState_execInv g hwf
  | tail _ hstep ih => exact step_execInv g hwf _ _ ih hstep

/-! ### Helper lemmas -/

theorem CQueue.pushAll_items (acc xs : List α) :
    (CQueue.pushAll ⟨acc⟩ xs).items = acc ++ xs := by
  induction xs generalizing acc with
  | nil => simp [CQueue.pushAll]
  | cons x xs ih =>
    show (CQueue.pushAll ⟨acc ++ [x]⟩ xs).items = acc ++ x :: xs
    rw [ih]
    simp

theorem CQueue.drain_of_le (xs : List α) (n : Nat) (h : xs.length ≤ n) :
    CQueue.drain n ⟨xs⟩ = xs := by
  induction xs generalizing n with
  | nil =>
    cases n with
    | zero => rfl
    | succ m => rfl
  | cons x xs ih =>
    cases n with
    | zero => simp at h
    | succ m =>
      show x :: CQueue.drain m ⟨xs⟩ = x :: xs
      rw [ih m (by simpa using h)]

theorem nodeReset_idem (nd : Node α τ) : nodeReset (nodeReset nd) = nodeReset nd := rfl

/-! ### Claim theorems -/

/-- C10: the concurrent queue is an unbounded FIFO under sequential use:
`push` always returns `true`, `pop` returns not-found exactly on the empty
queue and otherwise removes and returns the oldest element, and draining a
queue built by a sequence of pushes yields the elements in push order. -/
theorem queue_fifo (α : Type) (q : CQueue α) (x : α) (xs : List α) :
    (q.push x).2 = true ∧
    (q.pop.2 = none ↔ q.items = []) ∧
    (∀ y rest, q.items = y :: rest → q.pop = (⟨rest⟩, some y)) ∧
    CQueue.drain xs.length (CQueue.pushAll ⟨[]⟩ xs) = xs := by
  refine ⟨rfl, ?_, ?_, ?_⟩
  · cases hq : q.items with
    | nil => simp [CQueue.pop, hq]
    | cons y rest => simp [CQueue.pop, hq]
  · intro y rest hq
    simp [CQueue.pop, hq]
  · have h := CQueue.pushAll_items (α := α) [] xs
    have : CQueue.pushAll (⟨[]⟩ : CQueue α) xs = ⟨xs⟩ := by
      cases hh : CQueue.pushAll (⟨[]⟩ : CQueue α) xs with
      | mk items => rw [hh] at h; simpa using congrArg CQueue.mk h
    rw [this]
    exact CQueue.drain_of_le xs xs.length (Nat.le_refl _)

/-- C10 witness: the queue laws applied at a concrete queue and list. -/
theorem queue_fifo_app :
    ((⟨[1, 2]⟩ : CQueue Nat).push 3).2 = true ∧
    ((⟨[1, 2]⟩ : CQueue Nat).pop.2 = none ↔ ([1, 2] : List Nat) = []) ∧
    (∀ y rest, ([1, 2] : List Nat) = y :: rest →
      (⟨[1, 2]⟩ : CQueue Nat).pop = (⟨rest⟩, some y)) ∧
    CQueue.drain ([5, 6, 7] : List Nat).length (CQueue.pushAll ⟨[]⟩ [5, 6, 7]) = [5, 6, 7] :=
  queue_fifo Nat ⟨[1, 2]⟩ 3 [5, 6, 7]

/-- C5: on a node whose result type is non-copyable, executing with more
than one registered result-consumer throws the `std::logic_error` usage
error instead of dropping data; with exactly one consumer the value is
handed to that consumer and the result slot is left empty. -/
theorem nonCopyable_consumers (α : Type) (v : α) (k : Nat) (hk : 2 ≤ k) :
    nodeExecuteNonCopyable v k =
      ExecOutcome.err ("cant have more than 1 descendant process for  anon-copyable object") ∧
    nodeExecuteNonCopyable v 1 = ExecOutcome.done none [v] := by
  constructor
  · unfold nodeExecuteNonCopyable
    rw [if_pos (by omega)]
  · rfl

/-- C5 witness: the non-copyable consumer rules at a concrete value and
consumer count. -/
theorem nonCopyable_consumers_app :
    nodeExecuteNonCopyable (37 : Nat) 2 =
      ExecOutcome.err ("cant have more than 1 descendant process for  anon-copyable object") ∧
    nodeExecuteNonCopyable (37 : Nat) 1 = ExecOutcome.done none [37] :=
  nonCopyable_consumers Nat 37 2 (by decide)

/-- C6: `getValue()` raises the `"node has no result."` usage error exactly
when the result slot is empty — in particular directly after `reset()`,
whose slot is always empty — and otherwise returns the stored result, never
a stale or default value. -/
theorem getValue_spec (α τ : Type) (r : Option α) (nd : Node α τ) :
    (getValue r = Except.error ("node has no result.") ↔ r = none) ∧
    (∀ v : α, r = some v → getValue r = Except.ok v) ∧
    (nodeReset nd).result = none := by
  refine ⟨?_, ?_, rfl⟩
  · cases r with
    | none => simp [getValue]
    | some v => simp [getValue]
  · intro v hv
    rw [hv]
    rfl

/-- C6 witness: `getValue` evaluated on a concrete slot and node. -/
theorem getValue_spec_app :
    (getValue (some 13) = Except.error ("node has no result.") ↔ (some 13 : Option Nat) = none) ∧
    (∀ v : Nat, (some 13 : Option Nat) = some v → getValue (some 13) = Except.ok v) ∧
    (nodeReset (⟨"t", 0, [], [], some 13, 5, 2⟩ : Node Nat Nat)).result = none :=
  getValue_spec Nat Nat (some 13) ⟨"t", 0, [], [], some 13, 5, 2⟩

/-- C7: after `TaskGraph::reset()`, every node's pending-parent counter
equals its parent count, every result slot is empty, the completed-count is
zero, and every other per-node field (name, callable, descendant edges,
dependent list, parent count) is unchanged. -/
theorem graphReset_state (α τ : Type) (g : Graph α τ) :
    (graphReset g).completedTasks = 0 ∧
    (∀ nd ∈ (graphReset g).nodes, nd.pendingCount = nd.parentCount ∧ nd.result = none) ∧
    (graphReset g).nodes.map (fun nd => (nd.name, nd.task, nd.descendants, nd.dependents, nd.parentCount)) =
      g.nodes.map (fun nd => (nd.name, nd.task, nd.descendants, nd.dependents, nd.parentCount)) := by
  refine ⟨rfl, ?_, ?_⟩
  · intro nd hnd
    simp only [graphReset, List.mem_map] at hnd
    obtain ⟨nd0, _, rfl⟩ := hnd
    exact ⟨rfl, rfl⟩
  · show (g.nodes.map nodeReset).map _ = _
    rw [List.map_map]
    rfl

/-- C7 witness: reset state applied at a concrete two-node graph. -/
theorem graphReset_state_app :
    (graphReset gEx).completedTasks = 0 ∧
    (∀ nd ∈ (graphReset gEx).nodes, nd.pendingCount = nd.parentCount ∧ nd.result = none) ∧
    (graphReset gEx).nodes.map (fun nd => (nd.name, nd.task, nd.descendants, nd.dependents, nd.parentCount)) =
      gEx.nodes.map (fun nd => (nd.name, nd.task, nd.descendants, nd.dependents, nd.parentCount)) :=
  graphReset_state Nat Nat gEx

/-- C8: graph reset is idempotent: two consecutive `reset()` calls leave
exactly the state a single `reset()` leaves. -/
theorem graphReset_idem (α τ : Type) (g : Graph α τ) :
    graphReset (graphReset g) = graphReset g := by
  simp only [graphReset, List.map_map]
  rfl

/-- C1: `hasCycle()` returns `true` if and only if the directed graph of
descendant edges contains a cycle reachable from some node (equivalently, a
node lying on a cycle through itself); in particular it returns `false` for
every acyclic graph. -/
theorem hasCycle_iff_cycle (g : List (List Nat)) (hwf : WfDesc g) :
    hasCycle g = true ↔ ∃ v, Relation.TransGen (Gstep (adjOf g)) v v := by
  have hwf2 : ∀ i, ∀ j ∈ adjOf g i, j < g.length := by
    intro i j hj
    by_cases hi : i < g.length
    · have hmem : adjOf g i ∈ g := by
        rw [adjOf, List.getD_eq_getElem g [] hi]
        exact List.getElem_mem hi
      exact hwf _ hmem j hj
    · rw [adjOf, List.getD_eq_default _ _ (Nat.le_of_not_lt hi)] at hj
      exact absurd hj (List.not_mem_nil j)
  have hbi0 : BlackInv (adjOf g) g.length ∅ :=
    ⟨Finset.empty_subset _, fun u hu => absurd hu (Finset.not_mem_empty u),
     fun u hu => absurd hu (Finset.not_mem_empty u)⟩
  constructor
  · intro h
    rw [hasCycle, List.any_eq_true] at h
    obtain ⟨r, hr, hvis⟩ := h
    rw [List.mem_range] at hr
    rcases hv : dfsVisit (adjOf g) (g.length + 1) r ∅ ∅ with ⟨rv, gv, bv⟩
    rw [hv] at hvis
    have hvp := (dfs_pair (adjOf g) g.length hwf2 (g.length + 1)).1 r ∅ ∅ rv gv bv hv hr
      (Finset.not_mem_empty r) (Finset.not_mem_empty r) (Finset.empty_subset _) hbi0
      (Finset.disjoint_empty_left _) (fun x hx => absurd hx (Finset.not_mem_empty x))
      (by simp only [Finset.empty_union, Finset.card_empty]; omega)
    exact hvp.1 hvis
  · rintro ⟨v, hcyc⟩
    have hvn : v < g.length := by
      obtain ⟨u, _, hstep⟩ := Relation.TransGen.tail'_iff.mp hcyc
      exact hwf2 u v hstep
    by_contra hfalse
    have hfalse2 : hasCycle g = false := by
      cases hhc : hasCycle g
      · rfl
      · exact absurd hhc hfalse
    rw [hasCycle, List.any_eq_false] at hfalse2
    have hvfalse := hfalse2 v (List.mem_range.mpr hvn)
    rcases hv : dfsVisit (adjOf g) (g.length + 1) v ∅ ∅ with ⟨rv, gv, bv⟩
    rw [hv] at hvfalse
    have hvp := (dfs_pair (adjOf g) g.length hwf2 (g.length + 1)).1 v ∅ ∅ rv gv bv hv hvn
      (Finset.not_mem_empty v) (Finset.not_mem_empty v) (Finset.empty_subset _) hbi0
      (Finset.disjoint_empty_left _) (fun x hx => absurd hx (Finset.not_mem_empty x))
      (by simp only [Finset.empty_union, Finset.card_empty]; omega)
    have hrv : rv = false := by
      cases rv
      · rfl
      · exact absurd rfl hvfalse
    obtain ⟨_, _, hvb, hbi2, _⟩ := hvp.2 hrv
    exact hbi2.2.2 v hvb hcyc

/-- C1 witness: the cycle-detection equivalence applied to the concrete
three-node cycle `0 → 1 → 2 → 0`. -/
theorem hasCycle_iff_cycle_app :
    WfDesc [[1], [2], [0]] ∧
    (hasCycle [[1], [2], [0]] = true ↔
      ∃ v, Relation.TransGen (Gstep (adjOf [[1], [2], [0]])) v v) :=
  ⟨by unfold WfDesc; decide,
   hasCycle_iff_cycle [[1], [2], [0]] (by unfold WfDesc; decide)⟩

/-- A one-node graph whose callable takes one argument (arity 1) and has no
registered parents. -/
def gArity : ExecGraph := { arity := [1], children := [[]] }

/-- C2: in every state reachable during an execution cycle, a node that has
been submitted (it is in the pool queue or already completed) has all of its
registered parents completed: a node is never submitted before every parent
fired its completion notification. -/
theorem parents_complete_before_submission (g : ExecGraph) (hwf : WfExec g)
    (s : ExecState) (hr : Reachable g s) (c : Nat)
    (hc : c ∈ s.queue ++ s.completed) (p : Nat) (hp : c ∈ g.childrenOf p) :
    p ∈ s.completed :=
  (reachable_execInv g hwf s hr).2.2.2.2 c hc p hp

/-- C2 witness: after running node 0 of the `Test1` graph, node 2 is
submitted and its parent 0 is completed. -/
theorem parents_complete_before_submission_app :
    (0 : Nat) ∈ (runNode test1Graph 0
      { initState test1Graph with queue := ([] : List Nat) ++ [] }).completed :=
  parents_complete_before_submission test1Graph (by unfold WfExec; decide) _
    (Relation.ReflTransGen.tail Relation.ReflTransGen.refl
      (Step.run (initState test1Graph) 0 [] [] (by decide)))
    2 (by decide) 0 (by decide)

/-- C3: in every reachable state of an execution cycle, no node has been
submitted twice (`queue ++ completed` is duplicate-free), every node's
pending-parent counter equals its initial value minus the dependency edges
already fired into it (so the counter never underflows and hitting zero is
one-shot), and a zero-arity node all of whose parents have completed has
been submitted — exactly once per cycle. -/
theorem pending_counter_oneShot (g : ExecGraph) (hwf : WfExec g) (s : ExecState)
    (hr : Reachable g s) :
    (s.queue ++ s.completed).Nodup ∧
    (∀ c < g.numNodes, s.pending.getD c 0 + firedInto g s c = g.initPending c) ∧
    (∀ c < g.numNodes, g.arity.getD c 0 = 0 →
      (∀ p, c ∈ g.childrenOf p → p ∈ s.completed) → c ∈ s.queue ++ s.completed) := by
  obtain ⟨hlen, heq, hnd, hmem, hpar⟩ := reachable_execInv g hwf s hr
  refine ⟨hnd, heq, ?_⟩
  intro c hc ha hall
  have hndc : s.completed.Nodup := hnd.of_append_right
  have hge := inCount_le_sum g s.completed hndc c hall
  have hf : firedInto g s c = (s.completed.map (fun p => (g.childrenOf p).count c)).sum := rfl
  have he := heq c hc
  have hinit : g.initPending c = g.arity.getD c 0 + g.inCount c := rfl
  have hp0 : s.pending.getD c 0 = 0 := by omega
  exact (hmem c).mpr ⟨hc, hp0⟩

/-- C3 witness: the one-shot counter facts at the initial state of the
`Test1` graph. -/
theorem pending_counter_oneShot_app :
    (((initState test1Graph).queue ++ (initState test1Graph).completed).Nodup ∧
    (∀ c < test1Graph.numNodes,
      (initState test1Graph).pending.getD c 0 + firedInto test1Graph (initState test1Graph) c
        = test1Graph.initPending c) ∧
    (∀ c < test1Graph.numNodes, test1Graph.arity.getD c 0 = 0 →
      (∀ p, c ∈ test1Graph.childrenOf p → p ∈ (initState test1Graph).completed) →
      c ∈ (initState test1Graph).queue ++ (initState test1Graph).completed)) :=
  pending_counter_oneShot test1Graph (by unfold WfExec; decide) (initState test1Graph)
    Relation.ReflTransGen.refl

/-- C4: a node whose callable has arity at least one starts with a
pending-parent counter of arity plus registered parents, and only parent
completions decrement it, so it never reaches zero: the node is never
submitted, never completes, and the completed-count never reaches the node
count, so `execute()` never unblocks. -/
theorem positive_arity_starves (g : ExecGraph) (hwf : WfExec g) (c : Nat)
    (hc : c < g.numNodes) (ha : 1 ≤ g.arity.getD c 0) (s : ExecState)
    (hr : Reachable g s) :
    c ∉ s.queue ∧ c ∉ s.completed ∧ s.completed.length ≠ g.numNodes := by
  obtain ⟨hlen, heq, hnd, hmem, hpar⟩ := reachable_execInv g hwf s hr
  have hndc : s.completed.Nodup := hnd.of_append_right
  have hcomplt : ∀ p ∈ s.completed, p < g.numNodes := fun p hp =>
    ((hmem p).mp (List.mem_append_right _ hp)).1
  have hle := sum_count_le g s.completed hndc hcomplt c
  have hf : firedInto g s c = (s.completed.map (fun p => (g.childrenOf p).count c)).sum := rfl
  have he := heq c hc
  have hinit : g.initPending c = g.arity.getD c 0 + g.inCount c := rfl
  have hp1 : 1 ≤ s.pending.getD c 0 := by omega
  have hnotin : c ∉ s.queue ++ s.completed := by
    intro hx
    have := ((hmem c).mp hx).2
    omega
  refine ⟨fun hx => hnotin (List.mem_append_left _ hx),
    fun hx => hnotin (List.mem_append_right _ hx), ?_⟩
  have hsub : s.completed.toFinset ⊆ (Finset.range g.numNodes).erase c := by
    intro p hp
    have hpm := List.mem_toFinset.mp hp
    refine Finset.mem_erase.mpr ⟨?_, Finset.mem_range.mpr (hcomplt p hpm)⟩
    intro hpc
    exact hnotin (List.mem_append_right _ (hpc ▸ hpm))
  have hcard := Finset.card_le_card hsub
  rw [List.toFinset_card_of_nodup hndc,
    Finset.card_erase_of_mem (Finset.mem_range.mpr hc), Finset.card_range] at hcard
  omega

/-- C4 witness: in the one-node arity-1 graph, node 0 is never submitted
and the run never completes, already at the initial state. -/
theorem positive_arity_starves_app :
    (0 : Nat) ∉ (initState gArity).queue ∧ (0 : Nat) ∉ (initState gArity).completed ∧
    (initState gArity).completed.length ≠ gArity.numNodes :=
  positive_arity_starves gArity (by unfold WfExec; decide) 0 (by decide) (by decide)
    (initState gArity) Relation.ReflTransGen.refl

/-- C9: on a single-worker pool, the `Test1` wiring executes its tasks'
side effects in FIFO submission order with dependency gating and
registration-order notification, producing exactly
`"task1->task3->task2->task4"`. -/
theorem test1_output :
    fifoRun test1Graph test1Eff 4 (initState test1Graph) "" = "task1->task3->task2->task4" := by
  decide

end BabyTask
